import Mathlib

/-!
Shallow embedding of the external-sort program (src/ExternalSort/Main.cpp and
src/ExternalSort/FileInteger.h) and proofs of the specification claims.

Integer values read from files are modelled as `Int` (the program only moves
and compares them, so machine width plays no role in the claims); counters and
file names are modelled as `Nat` (file names in the program are the base-10
rendering of a nonnegative counter, so the `Nat` itself stands for the name).
The disk is a map from numeric file name to file contents, plus a separate
destination slot filled by the final `rename` call.
-/

namespace ExtSort

/-- The sorted permutation of a list of machine integers, modelling the call
`std::sort(sortedValues, sortedValues + numToRead)` in `makeTempFiles`
(Main.cpp line 110): over a total antisymmetric order the sorted permutation
is unique, so any correct sort denotes this function. -/
def sortInts (l : List Int) : List Int :=
  List.insertionSort (fun a b => a ≤ b) l

/-- The chunking loop of `makeTempFiles` (Main.cpp lines 98-124): while
integers remain, read `numToRead = min(amountLeftToRead, maxFileInts)`
integers, sort them, and emit them as the next run.  `fuel` bounds the number
of loop iterations; `makeRuns` supplies `input.length`, which is enough
whenever `maxFileInts ≥ 1` (for `maxFileInts = 0` the C++ loop never
terminates, a case outside every claim, which all assume `memory_bound > 1`). -/
def makeRunsAux : Nat → Nat → List Int → List (List Int)
  | _, _, [] => []
  | 0, _, _ :: _ => []
  | fuel + 1, k, x :: xs =>
      sortInts ((x :: xs).take k) :: makeRunsAux fuel k ((x :: xs).drop k)

/-- The runs produced by `makeTempFiles`, in file-name order `0, 1, ...`. -/
def makeRuns (input : List Int) (k : Nat) : List (List Int) :=
  makeRunsAux input.length k input

/-- A `FileInteger` (FileInteger.h): the current `value` together with the
tail of integers still unread from its run file.  `numLeftToRead` is the
length of the second component; the `ptrFileReadFrom` indirection is replaced
by carrying the unread suffix itself. -/
abbrev Cursor : Type := Int × List Int

/-- Extract the minimum-`value` cursor from `c :: cs` (the job of the
`std::make_heap`/`pop_heap` structure over `FileInteger::operator()`, whose
comparator `a->value > b->value` makes the heap top a minimum-value cursor).
Returns the selected cursor and the remaining ones.  Among equal values the
first is chosen; the C++ heap's tie order among equal values is unspecified,
and over sorted runs the emitted value sequence is independent of that
choice. -/
def selectMin : Cursor → List Cursor → Cursor × List Cursor
  | c, [] => (c, [])
  | c, d :: ds =>
      if d.1 < c.1 then
        ((selectMin d ds).1, c :: (selectMin d ds).2)
      else
        ((selectMin c ds).1, d :: (selectMin c ds).2)

/-- One iteration of the inner merge loop of `mergeTempFiles` (Main.cpp lines
190-216): pop the smallest cursor from the frontier and write its value; if
its file has integers left (`numLeftToRead > 0`), read the next one and push
the replacement cursor.  Returns `none` when the frontier is empty. -/
def frontierStep : List Cursor → Option (Int × List Cursor)
  | [] => none
  | c :: cs =>
      match selectMin c cs with
      | ((v, []), rest) => some (v, rest)
      | ((v, w :: ws), rest) => some (v, (w, ws) :: rest)

/-- The multiset of integers still held by a cursor frontier: each cursor
contributes its current value and its unread tail. -/
def cpool (cs : List Cursor) : List Int :=
  (cs.map (fun c => c.1 :: c.2)).flatten

/-- The inner merge loop, run to frontier exhaustion.  `fuel` bounds the
number of values written; `kMerge` supplies the exact pool size. -/
def kMergeAux : Nat → List Cursor → List Int
  | 0, _ => []
  | fuel + 1, cs =>
      match frontierStep cs with
      | none => []
      | some (v, cs2) => v :: kMergeAux fuel cs2

/-- The initial frontier of a batch (Main.cpp lines 162-175): one cursor per
run file, holding the file's first integer and its unread remainder.  The
program reads the first integer unconditionally; a zero-length run file would
make it read an undefined value, but no reachable batch contains one (every
run written by the program holds at least one integer), so empty runs
contribute no cursor here. -/
def cursorsOf (runs : List (List Int)) : List Cursor :=
  runs.filterMap (fun r => match r with | [] => none | x :: xs => some (x, xs))

/-- One whole k-way merge batch: merge the given run files into the single
output run the batch writes. -/
def kMerge (runs : List (List Int)) : List Int :=
  kMergeAux (cpool (cursorsOf runs)).length (cursorsOf runs)

/-- The temp-file namespace: numeric file name ↦ contents, `none` when no
file of that name exists. -/
abbrev Disk : Type := Nat → Option (List Int)

/-- A directory with no temp files. -/
def emptyDisk : Disk := fun _ => none

/-- Create/overwrite the file named `n` (an `ofstream` open + write + close). -/
def diskWrite (d : Disk) (n : Nat) (l : List Int) : Disk :=
  fun m => if m = n then some l else d m

/-- `remove(std::to_string(n))`: delete the file named `n`. -/
def diskRemove (d : Disk) (n : Nat) : Disk :=
  fun m => if m = n then none else d m

/-- The deletion loop of `mergeTempFiles` (Main.cpp lines 221-227): delete the
`m` files named `start, start+1, ..., start+m-1`. -/
def removeRange : Disk → Nat → Nat → Disk
  | d, _, 0 => d
  | d, s, m + 1 => removeRange (diskRemove d s) (s + 1) m

/-- Write a list of runs to consecutively named files starting at `n`, as the
loop of `makeTempFiles` does starting from file name `0`. -/
def writeRuns : Disk → Nat → List (List Int) → Disk
  | d, _, [] => d
  | d, n, r :: rs => writeRuns (diskWrite d n r) (n + 1) rs

/-- Contents of the file named `i`.  For an absent file the program's reads
return undefined data; no reachable execution reads an absent file, and the
model returns the empty list there. -/
def readRun (d : Disk) (i : Nat) : List Int := (d i).getD []

/-- The run files of one merge batch: files named `start .. start+m-1`. -/
def batchRuns (d : Disk) (start m : Nat) : List (List Int) :=
  (List.range' start m).map (readRun d)

/-- `makeTempFiles` (Main.cpp lines 93-127): returns the number of temp files
created and the resulting temp-file directory.  The integer count it derives
from `fileLen(unsortedFile) / sizeof(int)` is `input.length` here. -/
def makeTempFiles (input : List Int) (k : Nat) : Nat × Disk :=
  (((makeRuns input k).length, writeRuns emptyDisk 0 (makeRuns input k)))

/-- The loop state of `mergeTempFiles`: `current` is
`currentFileNumToMerge`, `total` is `totalNumberOfFiles`, and `disk` the
temp-file directory. -/
structure MergeState where
  current : Nat
  total : Nat
  disk : Disk

/-- `numFilesToOpen` (Main.cpp line 156): the batch size,
`min(numFilesRemaining, maxFileInts)`. -/
def batchSize (k : Nat) (s : MergeState) : Nat :=
  min (s.total - s.current) k

/-- One iteration of the outer `while (currentFileNumToMerge <
totalNumberOfFiles)` loop of `mergeTempFiles` (Main.cpp lines 149-231): open
the next `numFilesToOpen` files, heap-merge them into a new file named
`totalNumberOfFiles`, delete the merged input files, advance
`currentFileNumToMerge`, and increment `totalNumberOfFiles` unless this batch
consumed the last pending run. -/
def mergeStep (k : Nat) (s : MergeState) : MergeState :=
  { current := s.current + batchSize k s
    total :=
      if s.current + batchSize k s ≠ s.total then s.total + 1 else s.total
    disk :=
      removeRange
        (diskWrite s.disk s.total
          (kMerge (batchRuns s.disk s.current (batchSize k s))))
        s.current (batchSize k s) }

/-- The outer loop of `mergeTempFiles`, with an iteration budget: returns the
final state and the number of batches performed, or `none` when the budget is
exhausted (the model's rendering of a non-terminating run). -/
def mergeLoop : Nat → Nat → MergeState → Option (MergeState × Nat)
  | 0, _, _ => none
  | fuel + 1, k, s =>
      if s.current < s.total then
        match mergeLoop fuel k (mergeStep k s) with
        | none => none
        | some (s2, n) => some (s2, n + 1)
      else
        some (s, 0)

/-- Outcome of a sort: contents at the destination path (`none` when the
final `rename` found no file to rename, so no destination file was created),
the surviving temp-file directory, and the number of merge batches run. -/
structure SortResult where
  dest : Option (List Int)
  disk : Disk
  batches : Nat

/-- The final `rename(std::to_string(currentFileNumToMerge), sortedPath)`
(Main.cpp line 234): move the file named `s.current` to the destination; when
no such file exists the rename fails and no destination file appears. -/
def finalize (s : MergeState) (n : Nat) : SortResult :=
  match s.disk s.current with
  | none => ⟨none, s.disk, n⟩
  | some l => ⟨some l, diskRemove s.disk s.current, n⟩

/-- `mergeTempFiles` (Main.cpp lines 144-235).  The loop budget
`total + 1` is shown sufficient whenever `memory_bound ≥ 2`; `none` means the
C++ loop does not terminate on these arguments. -/
def mergeTempFiles (total k : Nat) (d : Disk) : Option SortResult :=
  match mergeLoop (total + 1) k ⟨0, total, d⟩ with
  | none => none
  | some (s, n) => some (finalize s n)

/-- The whole sort as driven by `main` (Main.cpp lines 67-71): run generation
followed by merging. -/
def externalSort (input : List Int) (k : Nat) : Option SortResult :=
  mergeTempFiles (makeTempFiles input k).1 k (makeTempFiles input k).2

/-- An open `ifstream` over a binary file of 4-byte integers: the file's
integers and the current read position (in bytes). -/
structure IStream where
  ints : List Int
  pos : Nat

/-- `tellg()`. -/
def tellg (s : IStream) : Nat := s.pos

/-- `seekg(0, std::ios::beg)`. -/
def seekgBeg (s : IStream) : IStream := ⟨s.ints, 0⟩

/-- `seekg(0, std::ios::end)`. -/
def seekgEnd (s : IStream) : IStream := ⟨s.ints, 4 * s.ints.length⟩

/-- `clear()`: resets stream error flags.  The model carries no error flags
(none is set at any `fileLen` call site), so the stream is unchanged. -/
def clearStream (s : IStream) : IStream := s

/-- `seekg(position)`. -/
def seekgTo (s : IStream) (p : Nat) : IStream := ⟨s.ints, p⟩

/-- `fileLen` (Main.cpp lines 248-265): save the position, measure
begin-to-end distance, clear, restore the position; returns the byte length
and the stream as the function leaves it. -/
def fileLen (s : IStream) : Nat × IStream :=
  (tellg (seekgEnd (seekgBeg s)) - tellg (seekgBeg s),
    seekgTo (clearStream (seekgEnd (seekgBeg s))) (tellg s))

/-- Sortedness of a list of integers in the program's ascending order. -/
def SortedInt (l : List Int) : Prop := List.Sorted (fun a b => a ≤ b) l

/-- Every cursor in a frontier carries a sorted value-plus-remainder list. -/
def SortedCursors (cs : List Cursor) : Prop :=
  ∀ c ∈ cs, SortedInt (c.1 :: c.2)

/-- The multiset of integers held by the run files still pending in the
current merge state: the contents of the files named
`current .. total - 1`, in name order. -/
def statePool (s : MergeState) : List Int :=
  ((List.range' s.current (s.total - s.current)).map (readRun s.disk)).flatten

/-- The files present on disk are exactly the pending runs
`current .. total - 1`. -/
def SupportInv (s : MergeState) : Prop :=
  ∀ i, (s.disk i).isSome = true ↔ (s.current ≤ i ∧ i < s.total)

/-- Every file on the disk holds a sorted run. -/
def SortedDisk (d : Disk) : Prop := ∀ i l, d i = some l → SortedInt l

lemma selectMin_perm :
    ∀ (cs : List Cursor) (c : Cursor),
      List.Perm ((selectMin c cs).1 :: (selectMin c cs).2) (c :: cs) := by
  intro cs
  induction cs with
  | nil => intro c; simp [selectMin]
  | cons d ds ih =>
      intro c
      by_cases h : d.1 < c.1
      · simp only [selectMin, if_pos h]
        exact (List.Perm.swap c (selectMin d ds).1 (selectMin d ds).2).trans
          (List.Perm.cons c (ih d))
      · simp only [selectMin, if_neg h]
        exact ((List.Perm.swap d (selectMin c ds).1 (selectMin c ds).2).trans
          (List.Perm.cons d (ih c))).trans (List.Perm.swap c d ds)

lemma selectMin_le :
    ∀ (cs : List Cursor) (c : Cursor),
      (selectMin c cs).1.1 ≤ c.1 ∧ ∀ d ∈ cs, (selectMin c cs).1.1 ≤ d.1 := by
  intro cs
  induction cs with
  | nil => intro c; simp [selectMin]
  | cons d ds ih =>
      intro c
      by_cases h : d.1 < c.1
      · simp only [selectMin, if_pos h]
        refine ⟨le_trans (ih d).1 (le_of_lt h), ?_⟩
        intro e he
        rcases List.mem_cons.mp he with h1 | he2
        · simpa [h1] using (ih d).1
        · exact (ih d).2 e he2
      · simp only [selectMin, if_neg h]
        refine ⟨(ih c).1, ?_⟩
        intro e he
        rcases List.mem_cons.mp he with h1 | he2
        · simpa [h1] using le_trans (ih c).1 (le_of_not_lt h)
        · exact (ih c).2 e he2

lemma frontierStep_eq_none (cs : List Cursor) :
    frontierStep cs = none ↔ cs = [] := by
  cases cs with
  | nil => simp [frontierStep]
  | cons c t =>
      rcases hsel : selectMin c t with ⟨⟨v, tail⟩, rest⟩
      cases tail <;> simp [frontierStep, hsel]

lemma frontierStep_perm (cs : List Cursor) (v : Int) (cs2 : List Cursor)
    (h : frontierStep cs = some (v, cs2)) :
    List.Perm (cpool cs) (v :: cpool cs2) := by
  cases cs with
  | nil => simp [frontierStep] at h
  | cons c t =>
      rcases hsel : selectMin c t with ⟨⟨w, tail⟩, rest⟩
      have hperm := selectMin_perm t c
      rw [hsel] at hperm
      have hcp : List.Perm (cpool (c :: t)) (cpool ((w, tail) :: rest)) :=
        List.Perm.flatten (List.Perm.map _ hperm.symm)
      cases tail with
      | nil =>
          simp only [frontierStep, hsel] at h
          rcases h with ⟨rfl, rfl⟩
          simpa [cpool] using hcp
      | cons a as =>
          simp only [frontierStep, hsel] at h
          rcases h with ⟨rfl, rfl⟩
          simpa [cpool] using hcp

lemma frontierStep_length (cs : List Cursor) (v : Int) (cs2 : List Cursor)
    (h : frontierStep cs = some (v, cs2)) : cs2.length ≤ cs.length := by
  cases cs with
  | nil => simp [frontierStep] at h
  | cons c t =>
      rcases hsel : selectMin c t with ⟨⟨w, tail⟩, rest⟩
      have hperm := selectMin_perm t c
      rw [hsel] at hperm
      have hlen : rest.length + 1 = t.length + 1 := by
        simpa using hperm.length_eq
      cases tail with
      | nil =>
          simp only [frontierStep, hsel] at h
          rcases h with ⟨rfl, rfl⟩
          simp
          omega
      | cons a as =>
          simp only [frontierStep, hsel] at h
          rcases h with ⟨rfl, rfl⟩
          simp
          omega

lemma mem_cpool (x : Int) (cs : List Cursor) :
    x ∈ cpool cs ↔ ∃ c ∈ cs, x ∈ c.1 :: c.2 := by
  unfold cpool
  rw [List.mem_flatten]
  constructor
  · rintro ⟨l, hl, hx⟩
    rcases List.mem_map.mp hl with ⟨c, hc, heq⟩
    exact ⟨c, hc, by rw [heq]; exact hx⟩
  · rintro ⟨c, hc, hx⟩
    exact ⟨c.1 :: c.2, List.mem_map.mpr ⟨c, hc, rfl⟩, hx⟩

lemma frontierStep_min (cs : List Cursor) (v : Int) (cs2 : List Cursor)
    (hs : SortedCursors cs) (h : frontierStep cs = some (v, cs2)) :
    SortedCursors cs2 ∧ ∀ x ∈ cpool cs2, v ≤ x := by
  cases cs with
  | nil => simp [frontierStep] at h
  | cons c t =>
      rcases hsel : selectMin c t with ⟨⟨w, tail⟩, rest⟩
      have hperm := selectMin_perm t c
      rw [hsel] at hperm
      have hmem : ∀ d ∈ ((w, tail) : Cursor) :: rest, d ∈ c :: t :=
        fun d hd => hperm.subset hd
      have hsub : SortedCursors (((w, tail) : Cursor) :: rest) :=
        fun d hd => hs d (hmem d hd)
      have hwt : SortedInt (w :: tail) := hsub (w, tail) (List.mem_cons_self _ _)
      have hminsel := selectMin_le t c
      rw [hsel] at hminsel
      have hwle : ∀ d ∈ c :: t, w ≤ d.1 := by
        intro d hd
        rcases List.mem_cons.mp hd with rfl | hd2
        · exact hminsel.1
        · exact hminsel.2 d hd2
      have hrest : ∀ d ∈ rest, ∀ x ∈ d.1 :: d.2, w ≤ x := by
        intro d hd x hx
        have hd1 : w ≤ d.1 := hwle d (hmem d (List.mem_cons_of_mem _ hd))
        rcases List.mem_cons.mp hx with rfl | hx2
        · exact hd1
        · exact le_trans hd1 ((List.sorted_cons.mp (hs d (hmem d
            (List.mem_cons_of_mem _ hd)))).1 x hx2)
      cases tail with
      | nil =>
          simp only [frontierStep, hsel] at h
          rcases h with ⟨rfl, rfl⟩
          refine ⟨fun d hd => hsub d (List.mem_cons_of_mem _ hd), ?_⟩
          intro x hx
          rcases (mem_cpool x cs2).mp hx with ⟨d, hd, hxd⟩
          exact hrest d hd x hxd
      | cons a as =>
          simp only [frontierStep, hsel] at h
          rcases h with ⟨rfl, rfl⟩
          constructor
          · intro d hd
            rcases List.mem_cons.mp hd with rfl | hd2
            · exact (List.sorted_cons.mp hwt).2
            · exact hsub d (List.mem_cons_of_mem _ hd2)
          · intro x hx
            rcases (mem_cpool x _).mp hx with ⟨d, hd, hxd⟩
            rcases List.mem_cons.mp hd with rfl | hd2
            · exact (List.sorted_cons.mp hwt).1 x hxd
            · exact hrest d hd2 x hxd

lemma kMergeAux_perm :
    ∀ (fuel : Nat) (cs : List Cursor), (cpool cs).length ≤ fuel →
      List.Perm (kMergeAux fuel cs) (cpool cs) := by
  intro fuel
  induction fuel with
  | zero =>
      intro cs h
      have hnil : cpool cs = [] := List.length_eq_zero.mp (Nat.le_zero.mp h)
      simp [kMergeAux, hnil]
  | succ fuel ih =>
      intro cs h
      rcases hstep : frontierStep cs with _ | ⟨v, cs2⟩
      · have hnil : cs = [] := (frontierStep_eq_none cs).mp hstep
        subst hnil
        simp [kMergeAux, hstep, cpool]
      · have hp := frontierStep_perm cs v cs2 hstep
        have hlen : (cpool cs).length = (cpool cs2).length + 1 := by
          simpa using hp.length_eq
        have h2 : (cpool cs2).length ≤ fuel := by omega
        simp only [kMergeAux, hstep]
        exact ((ih cs2 h2).cons v).trans hp.symm

lemma kMergeAux_sorted :
    ∀ (fuel : Nat) (cs : List Cursor), (cpool cs).length ≤ fuel →
      SortedCursors cs → SortedInt (kMergeAux fuel cs) := by
  intro fuel
  induction fuel with
  | zero => intro cs _ _; simp [kMergeAux]; exact List.sorted_nil
  | succ fuel ih =>
      intro cs h hs
      rcases hstep : frontierStep cs with _ | ⟨v, cs2⟩
      · simp [kMergeAux, hstep]; exact List.sorted_nil
      · have hp := frontierStep_perm cs v cs2 hstep
        have hlen : (cpool cs).length = (cpool cs2).length + 1 := by
          simpa using hp.length_eq
        have h2 : (cpool cs2).length ≤ fuel := by omega
        have hmin := frontierStep_min cs v cs2 hs hstep
        simp only [kMergeAux, hstep]
        refine List.sorted_cons.mpr ⟨?_, ih cs2 h2 hmin.1⟩
        intro b hb
        exact hmin.2 b ((kMergeAux_perm fuel cs2 h2).mem_iff.mp hb)

lemma cpool_cursorsOf (runs : List (List Int)) :
    cpool (cursorsOf runs) = runs.flatten := by
  induction runs with
  | nil => rfl
  | cons r rs ih =>
      cases r with
      | nil => simpa [cursorsOf, cpool, List.filterMap_cons] using ih
      | cons x xs => simpa [cursorsOf, cpool, List.filterMap_cons] using ih

lemma kMerge_perm (runs : List (List Int)) :
    List.Perm (kMerge runs) runs.flatten := by
  have h := kMergeAux_perm (cpool (cursorsOf runs)).length (cursorsOf runs)
    (le_refl _)
  rw [cpool_cursorsOf] at h
  simpa [kMerge, cpool_cursorsOf] using h

lemma sortedCursors_cursorsOf (runs : List (List Int))
    (h : ∀ r ∈ runs, SortedInt r) : SortedCursors (cursorsOf runs) := by
  intro c hc
  rcases List.mem_filterMap.mp hc with ⟨r, hr, hfr⟩
  cases r with
  | nil => simp at hfr
  | cons x xs =>
      have hfr2 : some ((x, xs) : Cursor) = some c := hfr
      have hc2 : c = (x, xs) := (Option.some.inj hfr2).symm
      rw [hc2]
      exact h (x :: xs) hr

lemma kMerge_sorted (runs : List (List Int))
    (h : ∀ r ∈ runs, SortedInt r) : SortedInt (kMerge runs) :=
  kMergeAux_sorted _ _ (le_refl _) (sortedCursors_cursorsOf runs h)

end ExtSort

namespace ExtSort


lemma makeRunsAux_flatten_perm :
    ∀ (fuel k : Nat) (input : List Int), 1 ≤ k → input.length ≤ fuel →
      List.Perm (makeRunsAux fuel k input).flatten input := by
  intro fuel
  induction fuel with
  | zero =>
      intro k input _ h
      have hnil : input = [] := List.length_eq_zero.mp (Nat.le_zero.mp h)
      subst hnil
      simp [makeRunsAux]
  | succ fuel ih =>
      intro k input hk h
      cases input with
      | nil => simp [makeRunsAux]
      | cons x xs =>
          have hdrop : ((x :: xs).drop k).length ≤ fuel := by
            rw [List.length_drop, List.length_cons]
            simp only [List.length_cons] at h
            omega
          have hperm1 : List.Perm (sortInts ((x :: xs).take k))
              ((x :: xs).take k) := List.perm_insertionSort _ _
          have hperm2 := ih k ((x :: xs).drop k) hk hdrop
          have heq : (makeRunsAux (fuel + 1) k (x :: xs)).flatten =
              sortInts ((x :: xs).take k) ++
                (makeRunsAux fuel k ((x :: xs).drop k)).flatten := by
            simp [makeRunsAux]
          rw [heq]
          have hcomb := hperm1.append hperm2
          rw [List.take_append_drop] at hcomb
          exact hcomb

lemma makeRuns_flatten_perm (input : List Int) (k : Nat) (hk : 1 ≤ k) :
    List.Perm (makeRuns input k).flatten input :=
  makeRunsAux_flatten_perm input.length k input hk (le_refl _)

lemma makeRunsAux_sorted_le :
    ∀ (fuel k : Nat) (input : List Int) (r : List Int),
      r ∈ makeRunsAux fuel k input → SortedInt r ∧ r.length ≤ k := by
  intro fuel
  induction fuel with
  | zero =>
      intro k input r hr
      cases input <;> simp [makeRunsAux] at hr
  | succ fuel ih =>
      intro k input r hr
      cases input with
      | nil => simp [makeRunsAux] at hr
      | cons x xs =>
          simp only [makeRunsAux, List.mem_cons] at hr
          rcases hr with hr1 | hr2
          · subst hr1
            constructor
            · exact List.sorted_insertionSort _ _
            · have hlen : (sortInts ((x :: xs).take k)).length =
                  ((x :: xs).take k).length :=
                (List.perm_insertionSort _ _).length_eq
              rw [hlen, List.length_take]
              exact Nat.min_le_left _ _
          · exact ih k _ r hr2

lemma makeRunsAux_length :
    ∀ (fuel k : Nat) (input : List Int), 1 ≤ k → input.length ≤ fuel →
      (makeRunsAux fuel k input).length = (input.length + k - 1) / k := by
  intro fuel
  induction fuel with
  | zero =>
      intro k input hk h
      have hnil : input = [] := List.length_eq_zero.mp (Nat.le_zero.mp h)
      subst hnil
      have hdiv : (k - 1) / k = 0 := Nat.div_eq_of_lt (by omega)
      simp [makeRunsAux, hdiv]
  | succ fuel ih =>
      intro k input hk h
      cases input with
      | nil =>
          have hdiv : (k - 1) / k = 0 := Nat.div_eq_of_lt (by omega)
          simp [makeRunsAux, hdiv]
      | cons x xs =>
          have hdrop : ((x :: xs).drop k).length ≤ fuel := by
            rw [List.length_drop, List.length_cons]
            simp only [List.length_cons] at h
            omega
          have hrec := ih k ((x :: xs).drop k) hk hdrop
          simp only [makeRunsAux, List.length_cons, hrec, List.length_drop]
          rw [show xs.length + 1 + k - 1 = xs.length + k by omega,
            Nat.add_div_right _ (show 0 < k by omega)]
          rcases le_or_lt (xs.length + 1) k with hle | hgt
          · rw [show xs.length + 1 - k + k - 1 = k - 1 by omega,
              Nat.div_eq_of_lt (show k - 1 < k by omega),
              Nat.div_eq_of_lt (show xs.length < k by omega)]
          · rw [show xs.length + 1 - k + k - 1 = xs.length by omega]

lemma makeRunsAux_getD :
    ∀ (fuel k : Nat) (input : List Int) (i : Nat), 1 ≤ k →
      input.length ≤ fuel → i < (makeRunsAux fuel k input).length →
      (makeRunsAux fuel k input).getD i [] =
        sortInts ((input.drop (k * i)).take k) := by
  intro fuel
  induction fuel with
  | zero =>
      intro k input i hk h hi
      have hnil : input = [] := List.length_eq_zero.mp (Nat.le_zero.mp h)
      subst hnil
      simp [makeRunsAux] at hi
  | succ fuel ih =>
      intro k input i hk h hi
      cases input with
      | nil => simp [makeRunsAux] at hi
      | cons x xs =>
          cases i with
          | zero => simp [makeRunsAux]
          | succ i =>
              have hdrop : ((x :: xs).drop k).length ≤ fuel := by
                rw [List.length_drop, List.length_cons]
                simp only [List.length_cons] at h
                omega
              have hi2 : i < (makeRunsAux fuel k ((x :: xs).drop k)).length := by
                simp only [makeRunsAux, List.length_cons] at hi
                omega
              have hrec := ih k ((x :: xs).drop k) i hk hdrop hi2
              show (makeRunsAux fuel k ((x :: xs).drop k)).getD i [] = _
              rw [hrec, List.drop_drop]
              rw [show k + k * i = k * (i + 1) by rw [Nat.mul_succ]; omega]

lemma removeRange_apply :
    ∀ (m : Nat) (d : Disk) (s i : Nat),
      removeRange d s m i = if s ≤ i ∧ i < s + m then none else d i := by
  intro m
  induction m with
  | zero =>
      intro d s i
      rw [if_neg (show ¬(s ≤ i ∧ i < s + 0) by omega)]
      rfl
  | succ m ih =>
      intro d s i
      show removeRange (diskRemove d s) (s + 1) m i = _
      rw [ih]
      by_cases h1 : s + 1 ≤ i ∧ i < s + 1 + m
      · rw [if_pos h1, if_pos (by omega)]
      · rw [if_neg h1]
        by_cases h2 : i = s
        · subst h2
          rw [if_pos (by omega)]
          simp [diskRemove]
        · rw [if_neg (by omega)]
          simp [diskRemove, h2]

lemma writeRuns_apply :
    ∀ (rs : List (List Int)) (d : Disk) (n i : Nat),
      writeRuns d n rs i =
        if n ≤ i ∧ i < n + rs.length then some (rs.getD (i - n) []) else d i := by
  intro rs
  induction rs with
  | nil =>
      intro d n i
      rw [if_neg (show ¬(n ≤ i ∧ i < n + ([] : List (List Int)).length) by
        simp only [List.length_nil]; omega)]
      rfl
  | cons r rs ih =>
      intro d n i
      show writeRuns (diskWrite d n r) (n + 1) rs i = _
      rw [ih]
      by_cases h1 : n + 1 ≤ i ∧ i < n + 1 + rs.length
      · rw [if_pos h1, if_pos (by simp only [List.length_cons]; omega)]
        rw [show i - n = (i - (n + 1)) + 1 by omega, List.getD_cons_succ]
      · rw [if_neg h1]
        by_cases h2 : i = n
        · subst h2
          rw [if_pos (by simp only [List.length_cons]; omega)]
          simp [diskWrite]
        · rw [if_neg (by simp only [List.length_cons]; omega)]
          simp [diskWrite, h2]

lemma readRun_writeRuns :
    ∀ (rs : List (List Int)) (d : Disk) (n : Nat),
      (List.range' n rs.length).map (readRun (writeRuns d n rs)) = rs := by
  intro rs
  induction rs with
  | nil => intro d n; simp
  | cons r rs ih =>
      intro d n
      have hhead : readRun (writeRuns (diskWrite d n r) (n + 1) rs) n = r := by
        unfold readRun
        rw [writeRuns_apply,
          if_neg (show ¬(n + 1 ≤ n ∧ n < n + 1 + rs.length) by omega)]
        simp [diskWrite]
      rw [List.length_cons, List.range'_succ, List.map_cons]
      show readRun (writeRuns (diskWrite d n r) (n + 1) rs) n ::
          (List.range' (n + 1) rs.length).map
            (readRun (writeRuns (diskWrite d n r) (n + 1) rs)) = r :: rs
      rw [hhead, ih]

end ExtSort

namespace ExtSort

lemma batchSize_le (k : Nat) (s : MergeState) :
    batchSize k s ≤ s.total - s.current :=
  Nat.min_le_left _ _

lemma batchSize_le_k (k : Nat) (s : MergeState) : batchSize k s ≤ k :=
  Nat.min_le_right _ _

lemma batchSize_pos (k : Nat) (s : MergeState) (hk : 1 ≤ k)
    (h : s.current < s.total) : 1 ≤ batchSize k s := by
  have h1 : batchSize k s = min (s.total - s.current) k := rfl
  omega

lemma mergeStep_current (k : Nat) (s : MergeState) :
    (mergeStep k s).current = s.current + batchSize k s := rfl

lemma mergeStep_total_of_ne (k : Nat) (s : MergeState)
    (h : s.current + batchSize k s ≠ s.total) :
    (mergeStep k s).total = s.total + 1 := by
  show (if s.current + batchSize k s ≠ s.total then s.total + 1 else s.total)
      = s.total + 1
  rw [if_pos h]

lemma mergeStep_total_of_eq (k : Nat) (s : MergeState)
    (h : s.current + batchSize k s = s.total) :
    (mergeStep k s).total = s.total := by
  show (if s.current + batchSize k s ≠ s.total then s.total + 1 else s.total)
      = s.total
  rw [if_neg (by omega)]

lemma mergeStep_disk (k : Nat) (s : MergeState) (i : Nat) :
    (mergeStep k s).disk i =
      if s.current ≤ i ∧ i < s.current + batchSize k s then none
      else if i = s.total then
        some (kMerge (batchRuns s.disk s.current (batchSize k s)))
      else s.disk i := by
  show removeRange
      (diskWrite s.disk s.total
        (kMerge (batchRuns s.disk s.current (batchSize k s))))
      s.current (batchSize k s) i = _
  rw [removeRange_apply]
  by_cases h1 : s.current ≤ i ∧ i < s.current + batchSize k s
  · rw [if_pos h1, if_pos h1]
  · rw [if_neg h1, if_neg h1]
    by_cases h2 : i = s.total
    · rw [if_pos h2]
      simp [diskWrite, h2]
    · rw [if_neg h2]
      simp [diskWrite, h2]

lemma batchRuns_sorted (d : Disk) (start m : Nat) (hd : SortedDisk d) :
    ∀ r ∈ batchRuns d start m, SortedInt r := by
  intro r hr
  rcases List.mem_map.mp hr with ⟨i, _, heq⟩
  rw [← heq]
  unfold readRun
  cases hdi : d i with
  | none => exact List.sorted_nil
  | some l => simpa using hd i l hdi

lemma mergeStep_sortedDisk (k : Nat) (s : MergeState)
    (hd : SortedDisk s.disk) : SortedDisk (mergeStep k s).disk := by
  intro i l hil
  rw [mergeStep_disk] at hil
  by_cases h1 : s.current ≤ i ∧ i < s.current + batchSize k s
  · rw [if_pos h1] at hil
    exact absurd hil (by simp)
  · rw [if_neg h1] at hil
    by_cases h2 : i = s.total
    · rw [if_pos h2] at hil
      have hl : l = kMerge (batchRuns s.disk s.current (batchSize k s)) :=
        (Option.some.inj hil).symm
      rw [hl]
      exact kMerge_sorted _ (batchRuns_sorted _ _ _ hd)
    · rw [if_neg h2] at hil
      exact hd i l hil

lemma mergeStep_support (k : Nat) (s : MergeState) (hsup : SupportInv s)
    (hlt : s.current + batchSize k s < s.total) :
    SupportInv (mergeStep k s) := by
  intro i
  rw [mergeStep_disk, mergeStep_current,
    mergeStep_total_of_ne k s (by omega)]
  by_cases h1 : s.current ≤ i ∧ i < s.current + batchSize k s
  · rw [if_pos h1]
    simp
    omega
  · rw [if_neg h1]
    by_cases h2 : i = s.total
    · rw [if_pos h2]
      simp
      omega
    · rw [if_neg h2]
      have hbase := hsup i
      constructor
      · intro hs
        have := hbase.mp hs
        omega
      · intro hr
        exact hbase.mpr (by omega)

lemma mergeStep_pool (k : Nat) (s : MergeState)
    (hlt : s.current + batchSize k s < s.total) :
    List.Perm (statePool (mergeStep k s)) (statePool s) := by
  have hr2 : (mergeStep k s).total - (mergeStep k s).current =
      (s.total - s.current - batchSize k s) + 1 := by
    rw [mergeStep_current, mergeStep_total_of_ne k s (by omega)]
    omega
  have hsplit2 : List.range' (s.current + batchSize k s)
      (s.total - s.current - batchSize k s + 1) =
      List.range' (s.current + batchSize k s)
        (s.total - s.current - batchSize k s) ++ [s.total] := by
    rw [List.range'_concat]
    have harith : s.current + batchSize k s +
        1 * (s.total - s.current - batchSize k s) = s.total := by omega
    rw [harith]
  have hsplit1 : List.range' s.current (s.total - s.current) =
      List.range' s.current (batchSize k s) ++
        List.range' (s.current + batchSize k s)
          (s.total - s.current - batchSize k s) := by
    have h := List.range'_append s.current (batchSize k s)
      (s.total - s.current - batchSize k s) 1
    simp only [one_mul] at h
    rw [show s.total - s.current - batchSize k s + batchSize k s =
      s.total - s.current by omega] at h
    exact h.symm
  have hmid : ∀ i ∈ List.range' (s.current + batchSize k s)
      (s.total - s.current - batchSize k s),
      readRun (mergeStep k s).disk i = readRun s.disk i := by
    intro i hi
    rw [List.mem_range'_1] at hi
    unfold readRun
    rw [mergeStep_disk, if_neg (by omega), if_neg (by omega)]
  have hlast : readRun (mergeStep k s).disk s.total =
      kMerge (batchRuns s.disk s.current (batchSize k s)) := by
    unfold readRun
    rw [mergeStep_disk, if_neg (by omega), if_pos rfl]
    rfl
  have hpool2 : statePool (mergeStep k s) =
      ((List.range' (s.current + batchSize k s)
        (s.total - s.current - batchSize k s)).map (readRun s.disk)).flatten
        ++ kMerge (batchRuns s.disk s.current (batchSize k s)) := by
    unfold statePool
    rw [hr2, mergeStep_current, hsplit2, List.map_append,
      List.flatten_append, List.map_congr_left hmid]
    simp [hlast]
  have hpool1 : statePool s =
      (batchRuns s.disk s.current (batchSize k s)).flatten ++
      ((List.range' (s.current + batchSize k s)
        (s.total - s.current - batchSize k s)).map (readRun s.disk)).flatten := by
    unfold statePool
    rw [hsplit1, List.map_append, List.flatten_append]
    rfl
  rw [hpool2, hpool1]
  exact (List.perm_append_comm).trans
    ((kMerge_perm _).append_right _)

lemma mergeStep_final (k : Nat) (s : MergeState)
    (h0 : s.current < s.total)
    (heq : s.current + batchSize k s = s.total) :
    (mergeStep k s).current = s.total ∧ (mergeStep k s).total = s.total ∧
    (mergeStep k s).disk s.total =
      some (kMerge (batchRuns s.disk s.current (batchSize k s))) ∧
    List.Perm (kMerge (batchRuns s.disk s.current (batchSize k s)))
      (statePool s) := by
  refine ⟨by rw [mergeStep_current, heq], mergeStep_total_of_eq k s heq,
    ?_, ?_⟩
  · rw [mergeStep_disk, if_neg (by omega), if_pos rfl]
  · have hsp : statePool s =
        (batchRuns s.disk s.current (batchSize k s)).flatten := by
      unfold statePool batchRuns
      rw [show batchSize k s = s.total - s.current by omega]
    rw [hsp]
    exact kMerge_perm _

lemma mergeStep_final_clean (k : Nat) (s : MergeState) (hsup : SupportInv s)
    (heq : s.current + batchSize k s = s.total) :
    ∀ i, i ≠ s.total → (mergeStep k s).disk i = none := by
  intro i hi
  rw [mergeStep_disk]
  by_cases h1 : s.current ≤ i ∧ i < s.current + batchSize k s
  · rw [if_pos h1]
  · rw [if_neg h1, if_neg hi]
    have hbase := hsup i
    cases hcase : s.disk i with
    | none => rfl
    | some l =>
        have hmem := hbase.mp (by rw [hcase]; rfl)
        omega

end ExtSort

namespace ExtSort

lemma mergeLoop_run (k : Nat) (hk : 2 ≤ k) :
    ∀ (fuel : Nat) (s : MergeState), s.total - s.current < fuel →
      ∃ sf n, mergeLoop fuel k s = some (sf, n) ∧
        (s.total - s.current = 0 → sf = s ∧ n = 0) ∧
        (0 < s.total - s.current →
          1 ≤ n ∧ n ≤ s.total - s.current ∧ sf.current = sf.total ∧
          ∃ l, sf.disk sf.current = some l ∧
            (SupportInv s → SortedDisk s.disk →
              SortedInt l ∧ List.Perm l (statePool s) ∧
              ∀ i, i ≠ sf.current → sf.disk i = none)) := by
  intro fuel
  induction fuel with
  | zero => intro s h; omega
  | succ fuel ih =>
      intro s hfuel
      by_cases hc : s.current < s.total
      · have hm1 : 1 ≤ batchSize k s := batchSize_pos k s (by omega) hc
        have hmr : batchSize k s ≤ s.total - s.current := batchSize_le k s
        by_cases hfin : s.current + batchSize k s = s.total
        · have hr2 : (mergeStep k s).total - (mergeStep k s).current = 0 := by
            rw [mergeStep_current, mergeStep_total_of_eq k s hfin]
            omega
          have hfuel2 :
              (mergeStep k s).total - (mergeStep k s).current < fuel := by
            omega
          rcases ih (mergeStep k s) hfuel2 with ⟨sf, n, hloop, hzero, _⟩
          rcases hzero hr2 with ⟨rfl, rfl⟩
          refine ⟨mergeStep k s, 1, ?_, ?_, ?_⟩
          · simp only [mergeLoop, if_pos hc]
            rw [hloop]
          · intro h0; omega
          · intro _
            obtain ⟨hcur, htot, hdisk, hperm⟩ := mergeStep_final k s hc hfin
            refine ⟨le_refl 1, by omega, by rw [hcur, htot],
              kMerge (batchRuns s.disk s.current (batchSize k s)), ?_, ?_⟩
            · rw [hcur]; exact hdisk
            · intro hsup hsort
              refine ⟨kMerge_sorted _ (batchRuns_sorted _ _ _ hsort),
                hperm, ?_⟩
              intro i hi
              rw [hcur] at hi
              exact mergeStep_final_clean k s hsup hfin i hi
        · have hlt : s.current + batchSize k s < s.total := by omega
          have hm2 : 2 ≤ batchSize k s := by
            have hbs : batchSize k s = min (s.total - s.current) k := rfl
            omega
          have hr2eq : (mergeStep k s).total - (mergeStep k s).current =
              s.total - s.current - batchSize k s + 1 := by
            rw [mergeStep_current, mergeStep_total_of_ne k s (by omega)]
            omega
          have hfuel2 :
              (mergeStep k s).total - (mergeStep k s).current < fuel := by
            rw [hr2eq]; omega
          rcases ih (mergeStep k s) hfuel2 with ⟨sf, n, hloop, _, hpos⟩
          have hr2pos :
              0 < (mergeStep k s).total - (mergeStep k s).current := by
            rw [hr2eq]; omega
          rcases hpos hr2pos with ⟨hn1, hn2, hcurtot, l, hl, hcond⟩
          refine ⟨sf, n + 1, ?_, ?_, ?_⟩
          · simp only [mergeLoop, if_pos hc]
            rw [hloop]
          · intro h0; omega
          · intro _
            refine ⟨by omega, ?_, hcurtot, l, hl, ?_⟩
            · rw [hr2eq] at hn2
              omega
            · intro hsup hsort
              have hsup2 := mergeStep_support k s hsup hlt
              have hsort2 := mergeStep_sortedDisk k s hsort
              rcases hcond hsup2 hsort2 with ⟨hsl, hlp, hclean⟩
              exact ⟨hsl, hlp.trans (mergeStep_pool k s hlt), hclean⟩
      · refine ⟨s, 0, ?_, fun _ => ⟨rfl, rfl⟩, ?_⟩
        · simp only [mergeLoop, if_neg hc]
        · intro h0; omega

lemma makeRuns_length_pos (input : List Int) (k : Nat) (hne : input ≠ []) :
    0 < (makeRuns input k).length := by
  cases input with
  | nil => exact absurd rfl hne
  | cons x xs => simp [makeRuns, makeRunsAux]

lemma initial_support (runs : List (List Int)) :
    SupportInv ⟨0, runs.length, writeRuns emptyDisk 0 runs⟩ := by
  intro i
  show (writeRuns emptyDisk 0 runs i).isSome = true ↔ _
  rw [writeRuns_apply]
  by_cases h : 0 ≤ i ∧ i < 0 + runs.length
  · rw [if_pos h]
    simp
    omega
  · rw [if_neg h]
    simp [emptyDisk]
    omega

lemma initial_sorted (runs : List (List Int)) (h : ∀ r ∈ runs, SortedInt r) :
    SortedDisk (writeRuns emptyDisk 0 runs) := by
  intro i l hil
  rw [writeRuns_apply] at hil
  by_cases hc : 0 ≤ i ∧ i < 0 + runs.length
  · rw [if_pos hc] at hil
    have hl : l = runs.getD (i - 0) [] := (Option.some.inj hil).symm
    rw [hl]
    apply h
    rw [List.getD_eq_getElem runs [] (by omega)]
    exact List.getElem_mem (by omega)
  · rw [if_neg hc] at hil
    exact absurd hil (by simp [emptyDisk])

lemma initial_pool (runs : List (List Int)) :
    statePool ⟨0, runs.length, writeRuns emptyDisk 0 runs⟩ = runs.flatten := by
  show ((List.range' 0 (runs.length - 0)).map
    (readRun (writeRuns emptyDisk 0 runs))).flatten = _
  rw [Nat.sub_zero, readRun_writeRuns]

lemma externalSort_spec (input : List Int) (k : Nat) (hk : 2 ≤ k)
    (hne : input ≠ []) :
    ∃ r, externalSort input k = some r ∧
      r.dest = some (sortInts input) ∧
      (∀ i, r.disk i = none) ∧
      1 ≤ r.batches ∧ r.batches ≤ (makeRuns input k).length := by
  have htotpos := makeRuns_length_pos input k hne
  rcases mergeLoop_run k hk ((makeRuns input k).length + 1)
      ⟨0, (makeRuns input k).length, writeRuns emptyDisk 0 (makeRuns input k)⟩
      (by simp) with ⟨sf, n, hloop, _, hpos⟩
  rcases hpos (by simp; omega) with ⟨hn1, hn2, hcurtot, l, hl, hcond⟩
  rcases hcond (initial_support _)
      (initial_sorted _ (fun r hr =>
        (makeRunsAux_sorted_le input.length k input r hr).1)) with
    ⟨hsl, hlp, hclean⟩
  rw [initial_pool] at hlp
  have hlinput : List.Perm l input :=
    hlp.trans (makeRuns_flatten_perm input k (by omega))
  have hleq : l = sortInts input := by
    refine List.eq_of_perm_of_sorted
      (hlinput.trans (List.perm_insertionSort (fun a b => a ≤ b) input).symm)
      hsl ?_
    exact List.sorted_insertionSort _ _
  have hms : externalSort input k =
      match mergeLoop ((makeRuns input k).length + 1) k
        ⟨0, (makeRuns input k).length,
          writeRuns emptyDisk 0 (makeRuns input k)⟩ with
      | none => none
      | some (s, n) => some (finalize s n) := rfl
  have hfinal : finalize sf n = ⟨some l, diskRemove sf.disk sf.current, n⟩ := by
    unfold finalize
    rw [hl]
  refine ⟨⟨some l, diskRemove sf.disk sf.current, n⟩, ?_, ?_, ?_, hn1, ?_⟩
  · rw [hms, hloop, ← hfinal]
  · rw [hleq]
  · intro i
    show (if i = sf.current then none else sf.disk i) = none
    by_cases hi : i = sf.current
    · rw [if_pos hi]
    · rw [if_neg hi]
      exact hclean i hi
  · simpa using hn2

end ExtSort

namespace ExtSort

lemma externalSort_nil (k : Nat) :
    externalSort [] k = some ⟨none, emptyDisk, 0⟩ := by
  simp [externalSort, makeTempFiles, makeRuns, makeRunsAux, writeRuns,
    mergeTempFiles, mergeLoop, finalize, emptyDisk]

lemma cursorsOf_length_le (runs : List (List Int)) :
    (cursorsOf runs).length ≤ runs.length :=
  List.length_filterMap_le _ _

/-- C1: evaluation of the model at the failing input.  On the empty input,
`makeTempFiles` creates no run file, the merge loop performs no batch, and
the final `rename("0", destination)` finds no file named `0`: there is no
destination file at all (`dest = none`), instead of the empty, valid output
file the claim promises. -/
theorem C1_empty_input_loses_output :
    externalSort [] 2 = some ⟨none, emptyDisk, 0⟩ := rfl

/-- C2: for every input and every `memory_bound > 1`, whenever the sort
produces a destination file, its contents are non-decreasing: every pair of
adjacent integers `output[i], output[i+1]` satisfies
`output[i] ≤ output[i+1]` (stated as `List.Chain'`). -/
theorem C2_output_nondecreasing (input : List Int) (k : Nat) (hk : 2 ≤ k)
    (l : List Int)
    (h : (externalSort input k).bind SortResult.dest = some l) :
    List.Chain' (fun a b => a ≤ b) l := by
  by_cases hne : input = []
  · subst hne
    rw [externalSort_nil] at h
    simp at h
  · rcases externalSort_spec input k hk hne with ⟨r, hr, hdest, _, _⟩
    rw [hr] at h
    simp at h
    rw [hdest] at h
    have hl : l = sortInts input := (Option.some.inj h).symm
    rw [hl]
    exact List.chain'_iff_pairwise.mpr (List.sorted_insertionSort _ _)

/-- C2 witness at input `[3,1,2]`, bound 2. -/
theorem C2_witness : List.Chain' (fun a b => (a : Int) ≤ b) [1, 2, 3] :=
  C2_output_nondecreasing [3, 1, 2] 2 (by decide) [1, 2, 3] rfl

/-- C3: for every input and every `memory_bound > 1`, run generation
produces `ceil(n / memory_bound)` run files named `0 .. run_count - 1`
(names at or beyond `run_count` hold no file); the file named `i` holds the
ascending sort of the `i`-th chunk of the input; every run is sorted with at
most `memory_bound` integers; and the concatenation of the runs in name
order is multiset-equal to the input. -/
theorem C3_run_generation (input : List Int) (k : Nat) (hk : 2 ≤ k) :
    (makeTempFiles input k).1 = (input.length + k - 1) / k ∧
    (∀ i, i < (makeTempFiles input k).1 →
      (makeTempFiles input k).2 i =
        some (sortInts ((input.drop (k * i)).take k))) ∧
    (∀ i, (makeTempFiles input k).1 ≤ i → (makeTempFiles input k).2 i = none) ∧
    (∀ r ∈ makeRuns input k, SortedInt r ∧ r.length ≤ k) ∧
    List.Perm (makeRuns input k).flatten input := by
  refine ⟨makeRunsAux_length input.length k input (by omega) (le_refl _),
    ?_, ?_, fun r hr => makeRunsAux_sorted_le input.length k input r hr,
    makeRuns_flatten_perm input k (by omega)⟩
  · intro i hi
    have hi2 : i < (makeRuns input k).length := hi
    show writeRuns emptyDisk 0 (makeRuns input k) i = _
    rw [writeRuns_apply, if_pos ⟨Nat.zero_le i, by omega⟩, Nat.sub_zero]
    exact congrArg some
      (makeRunsAux_getD input.length k input i (by omega) (le_refl _) hi2)
  · intro i hi
    have hi2 : (makeRuns input k).length ≤ i := hi
    show writeRuns emptyDisk 0 (makeRuns input k) i = _
    rw [writeRuns_apply, if_neg (by omega)]
    rfl

/-- C3 witness at input `[5,3,1,4,2]`, bound 2: three runs, run 0 as the
sorted first chunk, no file named 3. -/
theorem C3_witness :
    (makeTempFiles [5, 3, 1, 4, 2] 2).1 = (5 + 2 - 1) / 2 ∧
    (makeTempFiles [5, 3, 1, 4, 2] 2).2 0 =
      some (sortInts ((([5, 3, 1, 4, 2] : List Int).drop (2 * 0)).take 2)) ∧
    (makeTempFiles [5, 3, 1, 4, 2] 2).2 3 = none := by
  have h := C3_run_generation [5, 3, 1, 4, 2] 2 (by decide)
  exact ⟨h.1, h.2.1 0 (by decide), h.2.2.1 3 (by decide)⟩

/-- C4: for every `run_count ≥ 0`, every `memory_bound > 1` and every
starting directory, the merge engine terminates (the model's loop returns a
result within its budget even though `totalNumberOfFiles` is incremented
after every non-final batch), and when at least one run was pending the
surviving run has been renamed to the destination. -/
theorem C4_merge_terminates (total k : Nat) (d : Disk) (hk : 2 ≤ k) :
    ∃ r, mergeTempFiles total k d = some r ∧
      (0 < total → ∃ l, r.dest = some l) := by
  rcases mergeLoop_run k hk (total + 1) ⟨0, total, d⟩ (by simp)
    with ⟨sf, n, hloop, _, hpos⟩
  have hms : mergeTempFiles total k d = some (finalize sf n) := by
    unfold mergeTempFiles
    rw [hloop]
  refine ⟨finalize sf n, hms, ?_⟩
  intro htot
  rcases hpos (by simp; omega) with ⟨_, _, _, l, hl, _⟩
  refine ⟨l, ?_⟩
  unfold finalize
  rw [hl]

/-- C4 witness with three one-integer runs and bound 2. -/
theorem C4_witness :
    ∃ r, mergeTempFiles 3 2 (writeRuns emptyDisk 0 [[1], [2], [3]]) = some r ∧
      (0 < 3 → ∃ l, r.dest = some l) :=
  C4_merge_terminates 3 2 (writeRuns emptyDisk 0 [[1], [2], [3]]) (by decide)

/-- C5: the memory bound caps every buffer.  During run generation every
in-memory chunk holds at most `memory_bound` integers; during merging every
batch opens at most `memory_bound` files, the initial frontier holds at most
`memory_bound` cursors, and every inner merge step keeps the frontier from
growing, so it never exceeds `memory_bound` cursors. -/
theorem C5_memory_bound (input : List Int) (k : Nat) (s : MergeState)
    (hk : 2 ≤ k) :
    (∀ r ∈ makeRuns input k, r.length ≤ k) ∧
    batchSize k s ≤ k ∧
    (cursorsOf (batchRuns s.disk s.current (batchSize k s))).length ≤ k ∧
    (∀ cs (v : Int) cs2, frontierStep cs = some (v, cs2) →
      cs2.length ≤ cs.length) := by
  refine ⟨fun r hr => (makeRunsAux_sorted_le input.length k input r hr).2,
    batchSize_le_k k s, ?_, fun cs v cs2 h => frontierStep_length cs v cs2 h⟩
  have h1 := cursorsOf_length_le (batchRuns s.disk s.current (batchSize k s))
  have h2 : (batchRuns s.disk s.current (batchSize k s)).length =
      batchSize k s := by
    unfold batchRuns
    rw [List.length_map, List.length_range']
  have h3 := batchSize_le_k k s
  omega

/-- C5 witness: a concrete chunk, batch, frontier and merge step at bound 2. -/
theorem C5_witness :
    (([3, 5] : List Int).length ≤ 2) ∧
    batchSize 2 ⟨0, 3, writeRuns emptyDisk 0 [[3, 5], [1, 4], [2]]⟩ ≤ 2 ∧
    ([((4 : Int), ([] : List Int)), ((3 : Int), [5])] : List Cursor).length ≤
      ([((3 : Int), [5]), ((1 : Int), [4])] : List Cursor).length := by
  have h := C5_memory_bound [5, 3, 1, 4, 2] 2
    ⟨0, 3, writeRuns emptyDisk 0 [[3, 5], [1, 4], [2]]⟩ (by decide)
  exact ⟨h.1 [3, 5] (by decide), h.2.1,
    h.2.2.2 [((3 : Int), [5]), ((1 : Int), [4])] 1
      [((4 : Int), ([] : List Int)), ((3 : Int), [5])] rfl⟩

/-- C6: every merge batch deletes its input run files as soon as it has
consumed them (after the step, no file in the batch's name range remains);
after a completed sort no temp file of any name remains on disk; and for a
non-empty input the sole surviving run has become the destination file,
holding the sorted input. -/
theorem C6_cleanup (input : List Int) (k : Nat) (hk : 2 ≤ k) :
    (∀ (s : MergeState) i, s.current ≤ i → i < s.current + batchSize k s →
      (mergeStep k s).disk i = none) ∧
    (∀ i, (externalSort input k).map (fun r => r.disk i) = some none) ∧
    (input ≠ [] → (externalSort input k).bind SortResult.dest =
      some (sortInts input)) := by
  refine ⟨?_, ?_, ?_⟩
  · intro s i h1 h2
    rw [mergeStep_disk, if_pos ⟨h1, h2⟩]
  · intro i
    by_cases hne : input = []
    · subst hne
      rw [externalSort_nil]
      simp [emptyDisk]
    · rcases externalSort_spec input k hk hne with ⟨r, hr, _, hdisk, _⟩
      rw [hr]
      simp
      exact hdisk i
  · intro hne
    rcases externalSort_spec input k hk hne with ⟨r, hr, hdest, _, _⟩
    rw [hr]
    simpa using hdest

/-- C6 witness: a concrete batch deletion, a clean final directory and the
sorted destination for input `[3,1,2]`, bound 2. -/
theorem C6_witness :
    (mergeStep 2 ⟨0, 2, writeRuns emptyDisk 0 [[1], [2]]⟩).disk 0 = none ∧
    (externalSort [3, 1, 2] 2).map (fun r => r.disk 7) = some none ∧
    (externalSort [3, 1, 2] 2).bind SortResult.dest =
      some (sortInts [3, 1, 2]) := by
  have h := C6_cleanup [3, 1, 2] 2 (by decide)
  exact ⟨h.1 ⟨0, 2, writeRuns emptyDisk 0 [[1], [2]]⟩ 0 (by decide) (by decide),
    h.2.1 7, h.2.2 (by decide)⟩

/-- C7 counterexample: with input `[2,1]` and `memory_bound = 2` (equal to
the input length) run generation produces exactly one run, yet the merge
engine does not skip merging: its loop performs one batch (`batches = 1`,
not 0), copying the single run into a new file which is then renamed. -/
theorem C7_counterexample :
    (makeRuns [2, 1] 2).length = 1 ∧
    (externalSort [2, 1] 2).map SortResult.batches = some 1 := ⟨rfl, rfl⟩

/-- C7 (amended): for every non-empty input whose integer count equals
`memory_bound`, run generation produces exactly one run, and the merge
engine performs exactly one batch — a trivial merge of that single run that
copies it — after which the copy is renamed to the destination, so the
output equals the single run's (sorted) contents. -/
theorem C7_single_run (input : List Int) (k : Nat) (hk : 2 ≤ k)
    (hlen : input.length = k) :
    (makeRuns input k).length = 1 ∧
    ∃ r, externalSort input k = some r ∧ r.batches = 1 ∧
      r.dest = some (sortInts input) := by
  have hne : input ≠ [] := by
    intro hnil
    rw [hnil] at hlen
    simp at hlen
    omega
  have hlen1 : (makeRuns input k).length = 1 := by
    have h0 : (makeRuns input k).length = (input.length + k - 1) / k :=
      makeRunsAux_length input.length k input (by omega) (le_refl _)
    rw [h0, hlen]
    rw [show k + k - 1 = (k - 1) + k by omega,
      Nat.add_div_right _ (by omega : 0 < k),
      Nat.div_eq_of_lt (by omega : k - 1 < k)]
  refine ⟨hlen1, ?_⟩
  rcases externalSort_spec input k hk hne with ⟨r, hr, hdest, _, hb1, hb2⟩
  rw [hlen1] at hb2
  exact ⟨r, hr, by omega, hdest⟩

/-- C7 witness at input `[2,1]`, bound 2. -/
theorem C7_witness :
    (makeRuns [2, 1] 2).length = 1 ∧
    ∃ r, externalSort [2, 1] 2 = some r ∧ r.batches = 1 ∧
      r.dest = some (sortInts [2, 1]) :=
  C7_single_run [2, 1] 2 (by decide) (by decide)

/-- C8 counterexample: `mergeTempFiles` performs no defensive rejection of
`memory_bound ≤ 1`.  Called with `memory_bound = 1` on one pending run it
runs a full merge batch and succeeds (one batch performed, destination
written) instead of failing before any merge work. -/
theorem C8_counterexample :
    (mergeTempFiles 1 1 (writeRuns emptyDisk 0 [[5, 7]])).map
      (fun r => (r.dest, r.batches)) = some (some [5, 7], 1) := rfl

/-- C8 (amended): the engine has no guard of its own — only the caller
(`main`) checks `memory_bound > 1`.  With `memory_bound = 1` and two or more
pending runs (`s.current + 2 ≤ s.total`) the pass loop never terminates:
every batch copies one run and appends it to the pending pool, keeping the
pending count constant, so the model's loop exhausts any budget. -/
theorem C8_no_guard_nontermination :
    ∀ (fuel : Nat) (s : MergeState), s.current + 2 ≤ s.total →
      mergeLoop fuel 1 s = none := by
  intro fuel
  induction fuel with
  | zero => intro s _; rfl
  | succ fuel ih =>
      intro s h
      have hc : s.current < s.total := by omega
      have hbs : batchSize 1 s = 1 := by
        show min (s.total - s.current) 1 = 1
        omega
      have h2 : (mergeStep 1 s).current + 2 ≤ (mergeStep 1 s).total := by
        rw [mergeStep_current, hbs,
          mergeStep_total_of_ne 1 s (by rw [hbs]; omega)]
        omega
      simp only [mergeLoop, if_pos hc]
      rw [ih (mergeStep 1 s) h2]

/-- C8 witness: with three pending runs and bound 1, a budget of 7 batches
is exhausted without termination. -/
theorem C8_witness :
    mergeLoop 7 1 ⟨0, 3, writeRuns emptyDisk 0 [[1], [2], [3]]⟩ = none :=
  C8_no_guard_nontermination 7 ⟨0, 3, writeRuns emptyDisk 0 [[1], [2], [3]]⟩
    (by decide)

/-- C9: `fileLen` returns the open stream's length in bytes (4 bytes per
integer) and restores the stream exactly: the state after the call equals
the state before it, so it is a pure query. -/
theorem C9_fileLen_pure (s : IStream) :
    (fileLen s).1 = 4 * s.ints.length ∧ (fileLen s).2 = s := ⟨rfl, rfl⟩

/-- C10: determinism.  The destination contents are a fixed function of the
input sequence and the memory bound: `none` for the empty input and the
unique ascending permutation of the input otherwise.  Hence any two
executions on the same input and bound produce byte-identical output,
whatever tie-breaking the heap uses among equal values. -/
theorem C10_deterministic (input : List Int) (k : Nat) (hk : 2 ≤ k) :
    (externalSort input k).bind SortResult.dest =
      if input = [] then none else some (sortInts input) := by
  by_cases hne : input = []
  · subst hne
    rw [if_pos rfl, externalSort_nil]
    rfl
  · rw [if_neg hne]
    rcases externalSort_spec input k hk hne with ⟨r, hr, hdest, _, _⟩
    rw [hr]
    simpa using hdest

/-- C10 witness at the duplicate-heavy input `[4,4,4,1]`, bound 3. -/
theorem C10_witness :
    (externalSort [4, 4, 4, 1] 3).bind SortResult.dest =
      if ([4, 4, 4, 1] : List Int) = [] then none
      else some (sortInts [4, 4, 4, 1]) :=
  C10_deterministic [4, 4, 4, 1] 3 (by decide)

end ExtSort
